import Mathlib

/-!
# Verification of NeuroM's dendrogram layout engine and morphology QC predicates

Shallow embedding of `neurom/analysis/dendrogram.py` and `neurom/check/morphtree.py`.

Modelling conventions:
* Machine floating point is idealized as exact rational arithmetic (`ℚ`).  All
  coordinate, radius and offset arithmetic in the two source files consists of
  field operations, so the idealization is the standard real-number semantics.
* The source compares Euclidean norms (`np.linalg.norm(v) <= c`,
  `np.linalg.norm(u) < 0.55 * np.linalg.norm(w)`).  Those comparisons are
  embedded by their exact squared equivalents so that the definitions stay
  executable; bridging lemmas (`sqrt_le_rat_iff`, `sqrt_lt_smul_sqrt_iff`)
  prove that the squared forms coincide with the real `Real.sqrt` comparisons,
  and the specification-side predicates are stated with genuine `Real.sqrt`
  norms.
* `np.allclose` (used only to drop zero-length segments) is idealized as exact
  coordinate equality.
-/

namespace NeuroM

/-- A 3-d vector with rational coordinates. -/
structure Vec3 where
  x : ℚ
  y : ℚ
  z : ℚ
deriving DecidableEq

namespace Vec3

def add (a b : Vec3) : Vec3 := ⟨a.x + b.x, a.y + b.y, a.z + b.z⟩

def sub (a b : Vec3) : Vec3 := ⟨a.x - b.x, a.y - b.y, a.z - b.z⟩

def smul (c : ℚ) (v : Vec3) : Vec3 := ⟨c * v.x, c * v.y, c * v.z⟩

/-- Euclidean inner product. -/
def dot (a b : Vec3) : ℚ := a.x * b.x + a.y * b.y + a.z * b.z

/-- Squared Euclidean norm. -/
def normSq (v : Vec3) : ℚ := dot v v

end Vec3

/-- One sample row of a morphology: 3-d position plus radius
(the columns `COLS.X, COLS.Y, COLS.Z, COLS.R` of the data format). -/
structure Row where
  x : ℚ
  y : ℚ
  z : ℚ
  r : ℚ
deriving DecidableEq

/-- Source `coords(node)`: the first three values of a row, its x, y, z coordinates
(`node[:COLS.R]` in `is_back_tracking`). -/
def coords (p : Row) : Vec3 := ⟨p.x, p.y, p.z⟩

/-!
## The section tree of `neurom/check/morphtree.py`

Each node owns a section: a list of sample rows.  Children are held in a
mutually inductive forest so that all recursions are structural and reduce in
the kernel.  The parent back-reference of the source data structure is
recovered by threading the parent's section through the traversal.
-/

mutual
inductive MTree where
  | node : List Row → MForest → MTree
inductive MForest where
  | nil : MForest
  | cons : MTree → MForest → MForest
end

def MTree.value : MTree → List Row
  | .node v _ => v

def MTree.children : MTree → MForest
  | .node _ f => f

-- All nodes of the tree in depth-first order (`neurite.iter_nodes()`).
mutual
def nodesT : MTree → List MTree
  | .node v f => .node v f :: nodesF f
def nodesF : MForest → List MTree
  | .nil => []
  | .cons t f => nodesT t ++ nodesF f
end

-- All nodes paired with their parent's section
-- (`node.parent.value`, `None` at the root), depth-first.
mutual
def nodesParT (par : Option (List Row)) : MTree → List (Option (List Row) × List Row)
  | .node v f => (par, v) :: nodesParF (some v) f
def nodesParF (par : Option (List Row)) : MForest → List (Option (List Row) × List Row)
  | .nil => []
  | .cons t f => nodesParT par t ++ nodesParF par f
end

/-- A default row, used only to totalize list indexing that the source
performs on indices proved to be in range. -/
def dRow : Row := ⟨0, 0, 0, 0⟩

/-!
## `is_monotonic`
-/

/-- Source `is_monotonic(neurite, tol)` from `morphtree.py`: every node's section must
have `radius[i+1] <= radius[i] + tol` for consecutive samples, and a node's
first-sample radius must not exceed its parent's last-sample radius by more
than `tol`.  The source indexes `sec[0]` and `parent.value[-1]` directly; the
embedding reads them through `head?`/`getLast?` (equal to the source's access
whenever the sections are nonempty, which the data format guarantees). -/
def is_monotonic (neurite : MTree) (tol : ℚ) : Bool :=
  (nodesParT none neurite).all fun pv =>
    ((List.range (pv.2.length - 1)).all fun point_id =>
      !((pv.2.getD (point_id + 1) dRow).r > (pv.2.getD point_id dRow).r + tol))
    && (match pv.1 with
        | none => true
        | some psec =>
          match pv.2.head?, psec.getLast? with
          | some h, some l => !(h.r > l.r + tol)
          | _, _ => true)

/-!
## `is_flat`
-/

/-- A neurite as seen by `is_flat`.  `principal_direction_extent` lives in
`neurom.analysis.morphmath`, outside the covered sources.

Modelled from the spec: §6 states that the principal-direction extents "may be
supplied as precomputed attributes or as callable queries; the core spec treats
them as already available pure functions of a node/tree", so the neurite
carries its principal-direction extents as data. -/
structure FNeurite where
  ext : List ℚ

/-- Source `is_flat(neurite, tol, method)` from `morphtree.py`.  `np.sort` is embedded
as `List.insertionSort (· ≤ ·)` (any sort: over a linear order the sorted
permutation is unique).  The indexing `sorted_ext[0]`, `sorted_ext[1]` is
totalized with `getD`, equal to the source access when at least two extents
exist. -/
def is_flat (neurite : FNeurite) (tol : ℚ) (method : String) : Bool :=
  let ext := neurite.ext
  if method == "ratio" then
    let sorted_ext := ext.insertionSort (· ≤ ·)
    sorted_ext.getD 0 0 / sorted_ext.getD 1 0 < tol
  else
    ext.any fun e => e < tol

/-!
## `is_back_tracking`
-/

/-- Source `pair(segs)`: consecutive-point pairs `zip(segs, segs[1:])`. -/
def pair (segs : List Row) : List (Row × Row) := segs.zip segs.tail

/-- Source `max_radius(seg)`: maximum radius of the two segment endpoints. -/
def max_radius (seg : Row × Row) : ℚ := max seg.1.r seg.2.r

/-- Source `is_not_zero_seg(seg)`: the two endpoints do not coincide
(`not np.allclose(...)`, idealized to exact equality). -/
def is_not_zero_seg (seg : Row × Row) : Bool := decide (coords seg.1 ≠ coords seg.2)

/-- The direction vector of a segment (second endpoint minus first). -/
def segVector (seg : Row × Row) : Vec3 := Vec3.sub (coords seg.2) (coords seg.1)

/-- Source `is_in_the_same_verse(seg1, seg2)`: the two direction vectors have a
non-negative dot product. -/
def is_in_the_same_verse (seg1 seg2 : Row × Row) : Bool :=
  decide (0 ≤ Vec3.dot (segVector seg2) (segVector seg1))

/-- Source `vector_projection(v1, v2)` from `neurom.analysis.morphmath`
(outside the covered sources): `np.dot(v1, v2) / norm(v2)**2 * v2`.

Modelled from the spec: §2 lists "vector projection" among the geometry
primitives; this is the standard orthogonal projection of `v1` onto the line
of `v2`, exact in rational arithmetic since only `norm(v2)**2` appears. -/
def vector_projection (v1 v2 : Vec3) : Vec3 :=
  Vec3.smul (Vec3.dot v1 v2 / Vec3.normSq v2) v2

/-- Source `is_seg2_within_seg1_radius(dist, seg1, seg2)`:
`dist <= max_radius(seg1) + max_radius(seg2)`.  The caller passes the
Euclidean norm `dist = ‖CP - prj‖`; the embedding receives its square and
compares with the squared right-hand side (plus its sign), which is
equivalent — see `sqrt_le_rat_iff`. -/
def is_seg2_within_seg1_radius (distSq : ℚ) (seg1 seg2 : Row × Row) : Bool :=
  decide (0 ≤ max_radius seg1 + max_radius seg2) &&
    decide (distSq ≤ (max_radius seg1 + max_radius seg2) ^ 2)

/-- Source `is_seg1_overlapping_with_seg2(seg1, seg2)` from `morphtree.py`:
project the vector from the midpoint `C` of `seg2` to the endpoint `P` of
`seg1` onto `seg2`; require the orthogonal clearance to be within the radius
sum and `‖prj‖ < 0.55 * ‖S1S2‖` (both norm comparisons in squared form — see
`sqrt_le_rat_iff` and `sqrt_lt_smul_sqrt_iff`). -/
def is_seg1_overlapping_with_seg2 (seg1 seg2 : Row × Row) : Bool :=
  let s1 := coords seg2.1
  let s2 := coords seg2.2
  let C := Vec3.smul (1/2) (Vec3.add s1 s2)
  let P := coords seg1.2
  let CP := Vec3.sub P C
  let S1S2 := Vec3.sub s2 s1
  let prj := vector_projection CP S1S2
  if !is_seg2_within_seg1_radius (Vec3.normSq (Vec3.sub CP prj)) seg1 seg2 then
    false
  else
    decide (Vec3.normSq prj < (11/20 : ℚ) ^ 2 * Vec3.normSq S1S2)

/-- Source `is_inside_cylinder(seg1, seg2)`: the later segment `seg1` comes back onto
the earlier segment `seg2`. -/
def is_inside_cylinder (seg1 seg2 : Row × Row) : Bool :=
  !is_in_the_same_verse seg1 seg2 && is_seg1_overlapping_with_seg2 seg1 seg2

/-- The body of `is_back_tracking` for one section: pair the points, drop
zero-length segments, and test every segment (from the second on) against
every earlier one. -/
def sectionBackTracks (rows : List Row) : Bool :=
  let segment_pairs := (pair rows).filter is_not_zero_seg
  segment_pairs.tail.enum.any fun iseg1 =>
    (segment_pairs.take (iseg1.1 + 1)).any fun seg2 =>
      is_inside_cylinder iseg1.2 seg2

/-- Source `is_back_tracking(neurite)` from `morphtree.py`: over all nodes whose
section has more than 2 sample points, search for a pair of segments where the
later lies inside the cylinder of the earlier. -/
def is_back_tracking (neurite : MTree) : Bool :=
  ((nodesT neurite).filter fun snode => decide (2 < snode.value.length)).any
    fun snode => sectionBackTracks snode.value

/-!
## Specification-side predicates for `is_back_tracking` (claim wording)
-/

/-- The geometric overlap conditions of the back-tracking claim, stated with
genuine real-valued Euclidean norms: with `C` the midpoint of the earlier
segment `segj`, `P` the endpoint of the later segment `segi`, `CP = P - C`
and `prj` the projection of `CP` onto `segj`'s direction,
(a) the orthogonal clearance `‖CP - prj‖` does not exceed the sum of the two
segments' max endpoint radii, (b) `‖prj‖ < 0.55 × (segj's length)`, and
(c) the two direction vectors do not face the same verse. -/
def backTrackCondition (segj segi : Row × Row) : Prop :=
  let s1 := coords segj.1
  let s2 := coords segj.2
  let C := Vec3.smul (1/2) (Vec3.add s1 s2)
  let P := coords segi.2
  let CP := Vec3.sub P C
  let S1S2 := Vec3.sub s2 s1
  let prj := vector_projection CP S1S2
  Real.sqrt ((Vec3.normSq (Vec3.sub CP prj) : ℚ) : ℝ) ≤
      ((max_radius segi + max_radius segj : ℚ) : ℝ) ∧
    Real.sqrt ((Vec3.normSq prj : ℚ) : ℝ) <
      0.55 * Real.sqrt ((Vec3.normSq S1S2 : ℚ) : ℝ) ∧
    Vec3.dot (segVector segj) (segVector segi) < 0

/-- The back-tracking claim, as worded: some node whose section has more than
2 sample points contains an earlier and a later non-zero-length
consecutive-point segment satisfying the overlap conditions. -/
def backTrackingSpec (neurite : MTree) : Prop :=
  ∃ snode ∈ nodesT neurite, 2 < snode.value.length ∧
    ∃ segj segi, List.Sublist [segj, segi] (pair snode.value) ∧
      coords segj.1 ≠ coords segj.2 ∧ coords segi.1 ≠ coords segi.2 ∧
      backTrackCondition segj segi

/-!
## The point tree of `neurom/analysis/dendrogram.py`

In the dendrogram module each tree node carries a single sample row
(`current_node.value`, with `value[COLS.R]` its radius), and children form the
recursive structure.  As for `MTree`, children are a mutually inductive forest
so all recursions are structural.
-/

mutual
inductive PTree where
  | node : Row → PForest → PTree
inductive PForest where
  | nil : PForest
  | cons : PTree → PForest → PForest
end

def PTree.value : PTree → Row
  | .node v _ => v

def PTree.children : PTree → PForest
  | .node _ f => f

-- `n_terminations(tree)` from `neurom.analysis.morphtree` (outside the
-- covered sources).
-- Modelled from the spec: glossary "Termination: a leaf node (no children)";
-- the count of leaf nodes of the subtree (a leaf counts itself).
mutual
def n_terminations : PTree → ℕ
  | .node _ f =>
    match f with
    | .nil => 1
    | .cons t f' => ntermF (.cons t f')
def ntermF : PForest → ℕ
  | .nil => 0
  | .cons t f => n_terminations t + ntermF f
end

-- `n_segments(tree)` from `neurom.analysis.morphtree` (outside the covered
-- sources).
-- Modelled from the spec: §3 "Segment: the line between two consecutive
-- sample rows within a node's section or between a node's last row and a
-- child's first row".  With one sample row per dendrogram node, segments are
-- exactly the parent→child edges.
mutual
def n_segments : PTree → ℕ
  | .node _ f => nsegF f
def nsegF : PForest → ℕ
  | .nil => 0
  | .cons t f => 1 + n_segments t + nsegF f
end

def PForest.length : PForest → ℕ
  | .nil => 0
  | .cons _ f => 1 + f.length

-- `n_bifurcations(tree)` from `neurom.analysis.morphtree` (outside the
-- covered sources).
-- Modelled from the spec: glossary "Bifurcation: a node with two or more
-- children (branch point)"; each such node is counted once.
mutual
def n_bifurcations : PTree → ℕ
  | .node _ f => (if 2 ≤ f.length then 1 else 0) + nbifF f
def nbifF : PForest → ℕ
  | .nil => 0
  | .cons t f => n_bifurcations t + nbifF f
end

/-- Source `_total_rectangles(tree)`: polygons to pre-allocate for one tree —
"a vertical line for each segment and two horizontal line at each branching
point". -/
def _total_rectangles (tree : PTree) : ℕ :=
  n_segments tree + n_bifurcations tree * 2

/-- The input object of `Dendrogram.__init__`: a `Tree`, a `Neuron` (an
ordered sequence of neurite trees), or anything else.  The source dispatches
with `isinstance`; per spec §9 this is modelled as an explicit tagged variant,
with `other` standing for every object that is neither a `Tree` nor a
`Neuron`. -/
inductive DendroObj where
  | tree : PTree → DendroObj
  | neuron : List PTree → DendroObj
  | other : DendroObj

/-- Source `_n_rectangles(obj)`: total rectangles for a tree, the sum over neurites
for a neuron, and `0` for any other object. -/
def _n_rectangles : DendroObj → ℕ
  | .tree t => _total_rectangles t
  | .neuron ns => (ns.map _total_rectangles).sum
  | .other => 0

/-- A polygon: the list of 2-d vertices of one rectangle
(one row `rectangles[i]` of the `np.zeros([_n_rectangles(obj), 4, 2])`
buffer). -/
def Poly : Type := List (ℚ × ℚ)

/-- The zero-filled polygon `np.zeros([4, 2])` allocates for each slot. -/
def zeroPoly : Poly := [(0, 0), (0, 0), (0, 0), (0, 0)]

/-- The polygon buffer allocated by `Dendrogram.__init__`:
`np.zeros([_n_rectangles(obj), 4, 2])`. -/
def initRectangles (obj : DendroObj) : List Poly :=
  List.replicate (_n_rectangles obj) zeroPoly

/-- Spec §3: each emitted polygon is "tagged implicitly by emission order as
vertical (segment body) or horizontal (branch connector)"; the embedding makes
the implicit tag explicit so that the claims can speak about it. -/
inductive RKind where
  | vertical : RKind
  | horizontal : RKind
deriving DecidableEq

/-- Source `_vertical_segment(old_offs, new_offs, spacing, radii)`: the four vertices
of a vertical rectangle. -/
def _vertical_segment (old_offs new_offs spacing : ℚ × ℚ) (radii : ℚ × ℚ) : Poly :=
  [(new_offs.1 - radii.1, old_offs.2 + spacing.2),
   (new_offs.1 - radii.2, new_offs.2),
   (new_offs.1 + radii.2, new_offs.2),
   (new_offs.1 + radii.1, old_offs.2 + spacing.2)]

/-- Source `_horizontal_segment(old_offs, new_offs, spacing, diameter)`: the four
vertices of a horizontal rectangle. -/
def _horizontal_segment (old_offs new_offs spacing : ℚ × ℚ) (diameter : ℚ) : Poly :=
  [(old_offs.1, old_offs.2 + spacing.2),
   (new_offs.1, old_offs.2 + spacing.2),
   (new_offs.1, old_offs.2 + spacing.2 - diameter),
   (old_offs.1, old_offs.2 + spacing.2 - diameter)]

/-- Source `_spacingx(node, max_dims, xoffset, xspace)`: horizontal spacing of the
current node from its number of leaves; returns the updated `max_dims`
together with the starting x position. -/
def _spacingx (node : PTree) (max_dims : ℚ × ℚ) (xoffset xspace : ℚ) :
    (ℚ × ℚ) × ℚ :=
  let x_spacing : ℚ := (n_terminations node : ℚ) * xspace
  let md := if x_spacing > max_dims.1 then (x_spacing, max_dims.2) else max_dims
  (md, xoffset - x_spacing / 2)

/-- Source `_update_offsets(start_x, spacing, terminations, offsets, length)`. -/
def _update_offsets (start_x : ℚ) (spacing : ℚ × ℚ) (terminations : ℕ)
    (offsets : ℚ × ℚ) (length : ℚ) : ℚ × ℚ :=
  (start_x + spacing.1 * (terminations : ℚ) / 2,
   offsets.2 + spacing.2 * 2 + length)

/-- The mutable layout state of a `Dendrogram` object during
`_generate_dendro`: the write index `self._n`, the written buffer slots (in
emission order, each tagged per spec §3), and `self._max_dims`. -/
structure DState where
  n : ℕ
  rects : List (RKind × Poly)
  maxDims : ℚ × ℚ

-- `Dendrogram._generate_dendro(current_node, spacing, offsets)`: the
-- recursive fill pass.  The per-child loop body becomes the forest function.
-- `segment_length` lives in `neurom.analysis.morphmath`, outside the covered
-- sources; modelled from the spec (§6: geometry primitives are "already
-- available pure functions"), the embedding is parameterized by the length
-- function `len` applied to the two endpoint rows.  `scale` is `self.scale`.
-- The preallocated numpy buffer together with the write `self._rectangles
-- [self._n] = ...; self._n += 1` is modelled by appending the written slot
-- and incrementing `n`.
mutual
def _generate_dendro (len : Row → Row → ℚ) (scale : ℚ) (current_node : PTree)
    (spacing offsets : ℚ × ℚ) (s : DState) : DState :=
  match current_node with
  | .node v f =>
    let sx := _spacingx (.node v f) s.maxDims offsets.1 spacing.1
    _generate_dendro_forest len scale v f spacing offsets sx.2
      { s with maxDims := sx.1 }
def _generate_dendro_forest (len : Row → Row → ℚ) (scale : ℚ) (pv : Row)
    (f : PForest) (spacing offsets : ℚ × ℚ) (start_x : ℚ) (s : DState) : DState :=
  match f with
  | .nil => s
  | .cons child rest =>
    let ln := len pv child.value
    let radii : ℚ × ℚ := (pv.r * scale, child.value.r * scale)
    let terminations := n_terminations child
    let new_offsets := _update_offsets start_x spacing terminations offsets ln
    let s1 : DState :=
      { s with
        rects := s.rects ++ [(RKind.vertical, _vertical_segment offsets new_offsets spacing radii)]
        n := s.n + 1 }
    let s2 : DState :=
      { s1 with
        maxDims :=
          if offsets.2 + spacing.2 * 2 + ln > s1.maxDims.2 then
            (s1.maxDims.1, offsets.2 + spacing.2 * 2 + ln)
          else s1.maxDims }
    let s3 := _generate_dendro len scale child spacing new_offsets s2
    let s4 : DState :=
      if offsets.1 ≠ new_offsets.1 then
        { s3 with
          rects := s3.rects ++ [(RKind.horizontal, _horizontal_segment offsets new_offsets spacing 0)]
          n := s3.n + 1 }
      else s3
    _generate_dendro_forest len scale pv rest spacing offsets
      (start_x + (terminations : ℚ) * spacing.1) s4
end

/-- Source `Dendrogram.generate` on a `Tree` input: run `_generate_dendro` with
`spacing = (40., 0.)`, `offsets = (0., 0.)` starting from the freshly
initialized state (`self._n = 0`, `self._max_dims = [0., 0.]`, empty
buffer). -/
def generate (len : Row → Row → ℚ) (scale : ℚ) (tree : PTree) : DState :=
  _generate_dendro len scale tree (40, 0) (0, 0) ⟨0, [], (0, 0)⟩

-- The emission trace of the fill pass: the sequence of buffer slots
-- `_generate_dendro` writes for a tree (respectively, for the per-child loop
-- over a forest of children), read off the recursion; the agreement theorems
-- `generate_dendro_trace` / `generate_dendro_forest_trace` prove that the
-- stateful pass appends exactly this trace and advances `self._n` by its
-- length.
mutual
def emitsT (len : Row → Row → ℚ) (scale : ℚ) : PTree → (ℚ × ℚ) → (ℚ × ℚ) →
    List (RKind × Poly)
  | .node v f, sp, offs =>
    emitsF len scale v f sp offs (offs.1 - (n_terminations (.node v f) : ℚ) * sp.1 / 2)
def emitsF (len : Row → Row → ℚ) (scale : ℚ) (pv : Row) : PForest → (ℚ × ℚ) → (ℚ × ℚ) →
    ℚ → List (RKind × Poly)
  | .nil, _, _, _ => []
  | .cons c rest, sp, offs, sx =>
    (RKind.vertical,
      _vertical_segment offs (_update_offsets sx sp (n_terminations c) offs (len pv c.value))
        sp (pv.r * scale, c.value.r * scale))
      :: (emitsT len scale c sp (_update_offsets sx sp (n_terminations c) offs (len pv c.value))
        ++ (if offs.1 ≠ (_update_offsets sx sp (n_terminations c) offs (len pv c.value)).1 then
              [(RKind.horizontal,
                _horizontal_segment offs
                  (_update_offsets sx sp (n_terminations c) offs (len pv c.value)) sp 0)]
            else [])
        ++ emitsF len scale pv rest sp offs (sx + (n_terminations c : ℚ) * sp.1))
end

/-- The x offsets the loop in `_generate_dendro` assigns to the children of a
node, extracted from the source: the `i`-th child's `new_offsets[0]` is
`start_x + spacing[0] * terminations / 2.` (`_update_offsets`), where
`start_x` starts at the `_spacingx` value and advances by
`terminations * spacing[0]` per processed child. -/
def childAssignedX (xspace : ℚ) : PForest → ℚ → ℕ → Option ℚ
  | .nil, _, _ => none
  | .cons c _, start_x, 0 => some (start_x + xspace * (n_terminations c : ℚ) / 2)
  | .cons c rest, start_x, i + 1 =>
    childAssignedX xspace rest (start_x + (n_terminations c : ℚ) * xspace) i

/-- The center x offset assigned to the `i`-th child of a node placed at
x offset `xoffset`: `childAssignedX` started from the `_spacingx` value
`xoffset - n_terminations(node) * xspace / 2`. -/
def assignedChildX (xoffset xspace : ℚ) (node : PTree) (i : ℕ) : Option ℚ :=
  childAssignedX xspace node.children
    (xoffset - (n_terminations node : ℚ) * xspace / 2) i

/-- The leaf counts of the children of a forest, in order. -/
def nTermList : PForest → List ℕ
  | .nil => []
  | .cons t f => n_terminations t :: nTermList f

/-- The `i`-th tree of a forest. -/
def PForest.get? : PForest → ℕ → Option PTree
  | .nil, _ => none
  | .cons t _, 0 => some t
  | .cons _ f, i + 1 => f.get? i

/-!
## Remaining specification-side predicates (claim wording)
-/

/-- Claim wording for C3: every section consists of colinear, same-direction
segments — all consecutive-point segment vectors of each node are non-negative
multiples of one common direction. -/
def sameDirectionSections (neurite : MTree) : Prop :=
  ∀ snode ∈ nodesT neurite, ∃ d : Vec3, ∀ seg ∈ pair snode.value,
    ∃ c : ℚ, 0 ≤ c ∧ segVector seg = Vec3.smul c d

/-- Claim wording for C4: some node has a consecutive-sample radius increase
above tolerance, or has a parent and its first-sample radius exceeds the
parent's last-sample radius by more than the tolerance. -/
def monotonicViolation (neurite : MTree) (tol : ℚ) : Prop :=
  ∃ pv ∈ nodesParT none neurite,
    (∃ i : ℕ, i + 1 < pv.2.length ∧
      (pv.2.getD i dRow).r + tol < (pv.2.getD (i + 1) dRow).r) ∨
    (∃ psec h l, pv.1 = some psec ∧ pv.2.head? = some h ∧
      psec.getLast? = some l ∧ l.r + tol < h.r)

/-!
## Concrete morphologies used as witnesses and failing inputs
-/

/-- A childless dendrogram node with zero radius at the origin. -/
def leafP : PTree := .node dRow .nil

/-- A dendrogram node bifurcating into two leaves. -/
def bifP : PTree := .node dRow (.cons leafP (.cons leafP .nil))

/-- The failing input of the buffer-size claim: a root trifurcation whose
first child itself bifurcates — child leaf counts (2, 1, 1). -/
def triP : PTree := .node dRow (.cons bifP (.cons leafP (.cons leafP .nil)))

/-- A chain node: a single child which is a leaf (leaf count 1, but one level
deeper than a plain leaf). -/
def chainP : PTree := .node dRow (.cons leafP .nil)

/-- A node bifurcating into a leaf and a chain — same leaf-count list (1, 1)
as `bifP` but different internal structure. -/
def bifP' : PTree := .node dRow (.cons leafP (.cons chainP .nil))

/-- Root with children (leaf, leaf): the second child's leaf count is 1 and
the first sibling contributes 1 leaf. -/
def c9tree₁ : PTree := .node dRow (.cons leafP (.cons leafP .nil))

/-- Root with children (bifurcation, leaf): the second child's leaf count is
still 1, but the first sibling now contributes 2 leaves. -/
def c9tree₂ : PTree := .node dRow (.cons bifP (.cons leafP .nil))

/-- Root with children (leaf-and-chain node, leaf): the same per-child
leaf-count list (2, 1) as `c9tree₂`, with a different internal structure of
the first sibling. -/
def c9tree₃ : PTree := .node dRow (.cons bifP' (.cons leafP .nil))

/-- A single-section neurite of four colinear samples along the x axis with
large radii: three same-direction segments in close proximity. -/
def colinearT : MTree :=
  .node [⟨0, 0, 0, 10⟩, ⟨1, 0, 0, 10⟩, ⟨2, 0, 0, 10⟩, ⟨3, 0, 0, 10⟩] .nil

/-!
## Vector lemmas
-/

theorem Vec3.normSq_nonneg (v : Vec3) : 0 ≤ Vec3.normSq v := by
  have hx := mul_self_nonneg v.x
  have hy := mul_self_nonneg v.y
  have hz := mul_self_nonneg v.z
  simp only [Vec3.normSq, Vec3.dot]
  linarith

theorem Vec3.dot_smul_smul (a b : ℚ) (u v : Vec3) :
    Vec3.dot (Vec3.smul a u) (Vec3.smul b v) = a * b * Vec3.dot u v := by
  simp only [Vec3.dot, Vec3.smul]
  ring

theorem Vec3.dot_comm (a b : Vec3) : Vec3.dot a b = Vec3.dot b a := by
  simp only [Vec3.dot]
  ring

/-!
## Bridging lemmas: squared norm comparisons versus `Real.sqrt` comparisons
-/

/-- Norm comparison `‖v‖ ≤ c` over the reals is exactly the squared comparison used by the
executable embedding. -/
theorem sqrt_le_rat_iff (a c : ℚ) :
    Real.sqrt ((a : ℝ)) ≤ ((c : ℝ)) ↔ (0 ≤ c ∧ a ≤ c ^ 2) := by
  rw [Real.sqrt_le_iff]
  constructor
  · rintro ⟨h1, h2⟩
    exact ⟨by exact_mod_cast h1, by exact_mod_cast h2⟩
  · rintro ⟨h1, h2⟩
    exact ⟨by exact_mod_cast h1, by exact_mod_cast h2⟩

/-- Norm comparison `‖u‖ < 0.55 · ‖w‖` over the reals is exactly the squared comparison used
by the executable embedding. -/
theorem sqrt_lt_smul_sqrt_iff (a b : ℚ) (ha : 0 ≤ a) :
    Real.sqrt ((a : ℝ)) < 0.55 * Real.sqrt ((b : ℝ)) ↔
      a < (11/20 : ℚ) ^ 2 * b := by
  have h1 : (0.55 : ℝ) * Real.sqrt ((b : ℝ)) = Real.sqrt ((0.55 : ℝ) ^ 2 * (b : ℝ)) := by
    rw [Real.sqrt_mul (by norm_num) ((b : ℝ)), Real.sqrt_sq (by norm_num)]
  rw [h1, Real.sqrt_lt_sqrt_iff (by exact_mod_cast ha)]
  constructor
  · intro h
    have h' : (a : ℝ) < (((11/20 : ℚ) ^ 2 * b : ℚ) : ℝ) := by
      push_cast
      norm_num at h ⊢
      linarith
    exact_mod_cast h'
  · intro h
    have h' : (a : ℝ) < (((11/20 : ℚ) ^ 2 * b : ℚ) : ℝ) := by exact_mod_cast h
    push_cast at h'
    norm_num at h' ⊢
    linarith

/-!
## Generic list lemmas: ordered pairs inside a list
-/

/-- Two positions `j < i` of a list yield the two-element sublist `[b, a]`. -/
theorem pair_sublist_of_getElem? {α : Type} {l : List α} {i j : ℕ} {a b : α}
    (hij : j < i) (hj : l[j]? = some b) (hi : l[i]? = some a) :
    List.Sublist [b, a] l := by
  induction l generalizing i j with
  | nil => simp at hj
  | cons x xs ih =>
    cases j with
    | zero =>
      simp only [List.getElem?_cons_zero, Option.some.injEq] at hj
      subst hj
      cases i with
      | zero => omega
      | succ i' =>
        simp only [List.getElem?_cons_succ] at hi
        have ha : a ∈ xs := List.getElem?_mem hi
        exact List.Sublist.cons₂ x (List.singleton_sublist.mpr ha)
    | succ j' =>
      cases i with
      | zero => omega
      | succ i' =>
        simp only [List.getElem?_cons_succ] at hj hi
        exact List.Sublist.cons x (ih (by omega) hj hi)

/-- Conversely, a two-element sublist `[b, a]` sits at some positions
`j < i`. -/
theorem exists_getElem?_of_pair_sublist {α : Type} {l : List α} {a b : α}
    (h : List.Sublist [b, a] l) :
    ∃ j i : ℕ, j < i ∧ l[j]? = some b ∧ l[i]? = some a := by
  induction l with
  | nil => simp at h
  | cons x xs ih =>
    cases h with
    | cons _ h' =>
      obtain ⟨j, i, hij, hj, hi⟩ := ih h'
      exact ⟨j + 1, i + 1, by omega, by simpa using hj, by simpa using hi⟩
    | cons₂ _ h' =>
      have ha : a ∈ xs := List.singleton_sublist.mp h'
      obtain ⟨i, hlt, hget⟩ := List.getElem_of_mem ha
      refine ⟨0, i + 1, by omega, by simp, ?_⟩
      simpa using (List.getElem?_eq_getElem hlt).trans (congrArg some hget)

/-!
## Boolean list helpers
-/

theorem all_eq_false_iff {α : Type} (l : List α) (p : α → Bool) :
    l.all p = false ↔ ∃ x ∈ l, p x = false := by
  rw [← Bool.not_eq_true, List.all_eq_true]
  push_neg
  simp [Bool.not_eq_true]

theorem any_eq_false_iff {α : Type} (l : List α) (p : α → Bool) :
    l.any p = false ↔ ∀ x ∈ l, p x = false := by
  rw [← Bool.not_eq_true, List.any_eq_true]
  push_neg
  simp [Bool.not_eq_true]

/-!
## The overlap test versus the claim's real-norm conditions
-/

/-- The executable cylinder test (with its squared norm comparisons) holds
exactly when the claim's real-norm overlap conditions hold. -/
theorem is_inside_cylinder_iff (segi segj : Row × Row) :
    is_inside_cylinder segi segj = true ↔ backTrackCondition segj segi := by
  unfold is_inside_cylinder is_seg1_overlapping_with_seg2 is_seg2_within_seg1_radius
    is_in_the_same_verse backTrackCondition
  simp only [Bool.and_eq_true, Bool.not_eq_true', decide_eq_false_iff_not, not_le,
    decide_eq_true_eq, Bool.not_eq_eq_eq_not, Bool.not_true, Bool.and_eq_false_imp]
  rw [sqrt_le_rat_iff, sqrt_lt_smul_sqrt_iff _ _ (Vec3.normSq_nonneg _)]
  split_ifs with hcond
  · simp only [Bool.false_eq_true, and_false, false_iff]
    rintro ⟨⟨hr, hd⟩, -, -⟩
    exact absurd (hcond hr) (not_lt.mpr hd)
  · push_neg at hcond
    obtain ⟨hr, hd⟩ := hcond
    simp only [decide_eq_true_eq]
    constructor
    · rintro ⟨hv, hp⟩
      exact ⟨⟨hr, hd⟩, hp, hv⟩
    · rintro ⟨-, hp, hv⟩
      exact ⟨hv, hp⟩

/-- The enumerate/slice double loop of `is_back_tracking` over one section
finds a hit exactly when the filtered pair list contains a two-element
sublist whose later member lies inside the cylinder of the earlier. -/
theorem sectionBackTracks_iff (rows : List Row) :
    sectionBackTracks rows = true ↔
      ∃ segj segi,
        List.Sublist [segj, segi] ((pair rows).filter is_not_zero_seg) ∧
        is_inside_cylinder segi segj = true := by
  unfold sectionBackTracks
  rw [List.any_eq_true]
  constructor
  · rintro ⟨⟨i, seg1⟩, hmem, hinner⟩
    rw [List.any_eq_true] at hinner
    obtain ⟨seg2, hmem2, hcyl⟩ := hinner
    have h1 : ((pair rows).filter is_not_zero_seg)[i+1]? = some seg1 := by
      rw [← List.getElem?_tail]
      exact List.mk_mem_enum_iff_getElem?.mp hmem
    obtain ⟨j, hjlt, hgetj⟩ := List.getElem_of_mem hmem2
    have hjlt' : j < i + 1 := by
      have h := hjlt
      rw [List.length_take] at h
      omega
    have h2 : ((pair rows).filter is_not_zero_seg)[j]? = some seg2 := by
      have h := List.getElem?_eq_getElem hjlt
      rw [hgetj, List.getElem?_take] at h
      simpa [hjlt'] using h
    exact ⟨seg2, seg1, pair_sublist_of_getElem? hjlt' h2 h1, hcyl⟩
  · rintro ⟨segj, segi, hsub, hcyl⟩
    obtain ⟨j, i, hij, hj, hi⟩ := exists_getElem?_of_pair_sublist hsub
    obtain ⟨i', rfl⟩ : ∃ i', i = i' + 1 := ⟨i - 1, by omega⟩
    refine ⟨(i', segi), ?_, ?_⟩
    · exact List.mk_mem_enum_iff_getElem?.mpr (by rw [List.getElem?_tail]; exact hi)
    · rw [List.any_eq_true]
      refine ⟨segj, ?_, hcyl⟩
      have h : (((pair rows).filter is_not_zero_seg).take (i'+1))[j]? = some segj := by
        rw [List.getElem?_take]
        simp only [hij, if_pos]
        exact hj
      exact List.getElem?_mem h

/-!
## Agreement of the stateful fill pass with its emission trace
-/

mutual

theorem generate_dendro_trace (len : Row → Row → ℚ) (scale : ℚ) (t : PTree)
    (sp offs : ℚ × ℚ) (s : DState) :
    (_generate_dendro len scale t sp offs s).rects
      = s.rects ++ emitsT len scale t sp offs := by
  cases t with
  | node v f =>
    unfold _generate_dendro emitsT
    rw [generate_dendro_forest_trace]
    simp [_spacingx]

theorem generate_dendro_forest_trace (len : Row → Row → ℚ) (scale : ℚ) (pv : Row)
    (f : PForest) (sp offs : ℚ × ℚ) (sx : ℚ) (s : DState) :
    (_generate_dendro_forest len scale pv f sp offs sx s).rects
      = s.rects ++ emitsF len scale pv f sp offs sx := by
  cases f with
  | nil => unfold _generate_dendro_forest emitsF; simp
  | cons c rest =>
    unfold _generate_dendro_forest emitsF
    dsimp only
    by_cases hc : offs.1 ≠ (_update_offsets sx sp (n_terminations c) offs (len pv c.value)).1
    · rw [if_pos hc, if_pos hc]
      rw [generate_dendro_forest_trace]
      dsimp only
      rw [generate_dendro_trace]
      simp
    · rw [if_neg hc, if_neg hc]
      rw [generate_dendro_forest_trace]
      rw [generate_dendro_trace]
      simp

end

mutual

theorem generate_dendro_count (len : Row → Row → ℚ) (scale : ℚ) (t : PTree)
    (sp offs : ℚ × ℚ) (s : DState) :
    (_generate_dendro len scale t sp offs s).n
      = s.n + (emitsT len scale t sp offs).length := by
  cases t with
  | node v f =>
    unfold _generate_dendro emitsT
    rw [generate_dendro_forest_count]
    simp [_spacingx]

theorem generate_dendro_forest_count (len : Row → Row → ℚ) (scale : ℚ) (pv : Row)
    (f : PForest) (sp offs : ℚ × ℚ) (sx : ℚ) (s : DState) :
    (_generate_dendro_forest len scale pv f sp offs sx s).n
      = s.n + (emitsF len scale pv f sp offs sx).length := by
  cases f with
  | nil => unfold _generate_dendro_forest emitsF; simp
  | cons c rest =>
    unfold _generate_dendro_forest emitsF
    dsimp only
    by_cases hc : offs.1 ≠ (_update_offsets sx sp (n_terminations c) offs (len pv c.value)).1
    · rw [if_pos hc, if_pos hc]
      rw [generate_dendro_forest_count]
      dsimp only
      rw [generate_dendro_count]
      simp
      omega
    · rw [if_neg hc, if_neg hc]
      rw [generate_dendro_forest_count]
      rw [generate_dendro_count]
      simp
      omega

end

/-!
## Leaf-count helpers for the horizontal placement
-/

theorem ntermF_eq_sum : ∀ f : PForest, ntermF f = (nTermList f).sum
  | .nil => by simp [ntermF, nTermList]
  | .cons t f => by simp [ntermF, nTermList, ntermF_eq_sum f]

theorem childAssignedX_congr (sx : ℚ) : ∀ (f₁ f₂ : PForest) (st : ℚ) (i : ℕ),
    nTermList f₁ = nTermList f₂ → childAssignedX sx f₁ st i = childAssignedX sx f₂ st i
  | .nil, .nil, _, _, _ => rfl
  | .nil, .cons _ _, _, _, h => by simp [nTermList] at h
  | .cons _ _, .nil, _, _, h => by simp [nTermList] at h
  | .cons c₁ r₁, .cons c₂ r₂, st, 0, h => by
    simp only [nTermList, List.cons.injEq] at h
    simp [childAssignedX, h.1]
  | .cons c₁ r₁, .cons c₂ r₂, st, i + 1, h => by
    simp only [nTermList, List.cons.injEq] at h
    simp only [childAssignedX, h.1]
    exact childAssignedX_congr sx r₁ r₂ (st + (n_terminations c₂ : ℚ) * sx) i h.2

/-!
## Claim theorems
-/

/-- Claim C2: `is_back_tracking(neurite)` returns true if and only if some
node whose section has more than 2 sample points contains two non-zero-length
consecutive-point segments, an earlier `segj` and a later `segi`, such that
(a) the orthogonal clearance `‖CP - prj‖` does not exceed the sum of the two
segments' max endpoint radii, (b) `‖prj‖ < 0.55 ×` the earlier segment's
length, and (c) the two direction vectors do not face the same verse; it
returns false only after exhausting every node and pair. -/
theorem back_tracking_characterization (neurite : MTree) :
    is_back_tracking neurite = true ↔ backTrackingSpec neurite := by
  unfold is_back_tracking backTrackingSpec
  rw [List.any_eq_true]
  constructor
  · rintro ⟨snode, hmem, hsec⟩
    rw [List.mem_filter, decide_eq_true_eq] at hmem
    obtain ⟨hmem, hlen⟩ := hmem
    rw [sectionBackTracks_iff] at hsec
    obtain ⟨segj, segi, hsub, hcyl⟩ := hsec
    have hnzj : is_not_zero_seg segj = true :=
      List.of_mem_filter (hsub.subset (by simp))
    have hnzi : is_not_zero_seg segi = true :=
      List.of_mem_filter (hsub.subset (by simp))
    rw [is_not_zero_seg, decide_eq_true_eq] at hnzj hnzi
    exact ⟨snode, hmem, hlen, segj, segi, hsub.trans (List.filter_sublist _),
      hnzj, hnzi, (is_inside_cylinder_iff segi segj).mp hcyl⟩
  · rintro ⟨snode, hmem, hlen, segj, segi, hsub, hnzj, hnzi, hcond⟩
    refine ⟨snode, List.mem_filter.mpr ⟨hmem, by simpa using hlen⟩, ?_⟩
    rw [sectionBackTracks_iff]
    refine ⟨segj, segi, ?_, (is_inside_cylinder_iff segi segj).mpr hcond⟩
    have h := hsub.filter is_not_zero_seg
    rwa [show List.filter is_not_zero_seg [segj, segi] = [segj, segi] by
      simp [List.filter_cons, is_not_zero_seg, hnzj, hnzi]] at h

/-- Claim C3: `is_back_tracking` never flags a pair of segments whose
direction vectors have a non-negative dot product (same-verse exemption); in
particular, for every neurite whose sections consist of colinear,
same-direction segments the predicate returns false regardless of
proximity. -/
theorem same_verse_never_flagged :
    (∀ seg1 seg2 : Row × Row,
      0 ≤ Vec3.dot (segVector seg2) (segVector seg1) →
        is_inside_cylinder seg1 seg2 = false) ∧
    (∀ neurite : MTree, sameDirectionSections neurite →
      is_back_tracking neurite = false) := by
  have hpair : ∀ seg1 seg2 : Row × Row,
      0 ≤ Vec3.dot (segVector seg2) (segVector seg1) →
        is_inside_cylinder seg1 seg2 = false := by
    intro s1 s2 h
    unfold is_inside_cylinder is_in_the_same_verse
    simp [h]
  refine ⟨hpair, ?_⟩
  intro neurite hsame
  rw [Bool.eq_false_iff]
  intro htrue
  unfold is_back_tracking at htrue
  rw [List.any_eq_true] at htrue
  obtain ⟨snode, hmem, hsec⟩ := htrue
  rw [List.mem_filter] at hmem
  rw [sectionBackTracks_iff] at hsec
  obtain ⟨segj, segi, hsub, hcyl⟩ := hsec
  have hsub' := hsub.trans (List.filter_sublist _)
  have hjmem : segj ∈ pair snode.value := hsub'.subset (by simp)
  have himem : segi ∈ pair snode.value := hsub'.subset (by simp)
  obtain ⟨d, hd⟩ := hsame snode hmem.1
  obtain ⟨cj, hcj, hj⟩ := hd segj hjmem
  obtain ⟨ci, hci, hi⟩ := hd segi himem
  have hdd : 0 ≤ Vec3.dot d d := by
    have h := Vec3.normSq_nonneg d
    simpa [Vec3.normSq] using h
  have hdot : 0 ≤ Vec3.dot (segVector segj) (segVector segi) := by
    rw [hj, hi, Vec3.dot_smul_smul]
    exact mul_nonneg (mul_nonneg hcj hci) hdd
  rw [hpair segi segj hdot] at hcyl
  exact Bool.false_ne_true hcyl

/-- Witness for claim C3: a concrete consecutive colinear same-direction pair
is not flagged, and the colinear four-point section is not back-tracking even
though its overlapping-radius segments are arbitrarily close. -/
theorem same_verse_never_flagged_witness :
    is_inside_cylinder (⟨1, 0, 0, 10⟩, ⟨2, 0, 0, 10⟩) (⟨0, 0, 0, 10⟩, ⟨1, 0, 0, 10⟩) = false ∧
    is_back_tracking colinearT = false := by
  constructor
  · exact same_verse_never_flagged.1 _ _ (by with_unfolding_all decide)
  · refine same_verse_never_flagged.2 colinearT ?_
    intro snode hsn
    have hs : snode = colinearT := by
      simpa [colinearT, nodesT, nodesF] using hsn
    subst hs
    refine ⟨⟨1, 0, 0⟩, ?_⟩
    intro seg hseg
    have hcases : seg = (⟨0, 0, 0, 10⟩, ⟨1, 0, 0, 10⟩) ∨
        seg = (⟨1, 0, 0, 10⟩, ⟨2, 0, 0, 10⟩) ∨
        seg = (⟨2, 0, 0, 10⟩, ⟨3, 0, 0, 10⟩) := by
      simpa [colinearT, MTree.value, pair] using hseg
    rcases hcases with rfl | rfl | rfl <;>
      exact ⟨1, by norm_num, by with_unfolding_all decide⟩

/-- Claim C4: `is_monotonic(neurite, tol)` returns false if and only if some
node has a consecutive-sample radius increase above the tolerance, or has a
parent and its first-sample radius exceeds the parent's last-sample radius by
more than the tolerance; it returns true for every tree with no such
violation, including a single-node tree. -/
theorem monotonic_characterization (neurite : MTree) (tol : ℚ) :
    is_monotonic neurite tol = false ↔ monotonicViolation neurite tol := by
  unfold is_monotonic monotonicViolation
  rw [all_eq_false_iff]
  constructor
  · rintro ⟨pv, hmem, hfail⟩
    refine ⟨pv, hmem, ?_⟩
    obtain ⟨par, sec⟩ := pv
    rw [Bool.and_eq_false_iff] at hfail
    rcases hfail with hfail | hfail
    · rw [all_eq_false_iff] at hfail
      obtain ⟨i, hir, hi⟩ := hfail
      rw [List.mem_range] at hir
      have hir' : i < sec.length - 1 := hir
      left
      refine ⟨i, show i + 1 < sec.length by omega, ?_⟩
      simpa using hi
    · right
      cases par with
      | none => simp at hfail
      | some psec =>
        dsimp only at hfail
        cases hh : sec.head? with
        | none => rw [hh] at hfail; simp at hfail
        | some h =>
          cases hl : psec.getLast? with
          | none => rw [hh, hl] at hfail; simp at hfail
          | some l =>
            rw [hh, hl] at hfail
            exact ⟨psec, h, l, rfl, rfl, hl, by simpa using hfail⟩
  · rintro ⟨pv, hmem, hviol⟩
    refine ⟨pv, hmem, ?_⟩
    obtain ⟨par, sec⟩ := pv
    rw [Bool.and_eq_false_iff]
    rcases hviol with ⟨i, hlen, hi⟩ | ⟨psec, h, l, hpar, hh, hl, hv⟩
    · left
      rw [all_eq_false_iff]
      have hlen' : i + 1 < sec.length := hlen
      refine ⟨i, by rw [List.mem_range]; omega, ?_⟩
      simpa using hi
    · right
      have hpar' : par = some psec := hpar
      subst hpar'
      have hh' : sec.head? = some h := hh
      have hl' : psec.getLast? = some l := hl
      dsimp only
      rw [hh', hl']
      simpa using hv

/-- Claim C5: with method exactly `"ratio"`, `is_flat` returns true if and
only if the ratio of the smallest principal-direction extent to the
second-smallest (the two leading entries after sorting ascending) is strictly
below the tolerance. -/
theorem flat_ratio_characterization (ext : List ℚ) (tol m₁ m₂ : ℚ)
    (hm₁ : m₁ ∈ ext) (hm₁min : ∀ x ∈ ext, m₁ ≤ x)
    (hm₂ : m₂ ∈ ext.erase m₁) (hm₂min : ∀ x ∈ ext.erase m₁, m₂ ≤ x)
    (hpos : 0 < m₂) :
    is_flat ⟨ext⟩ tol "ratio" = true ↔ m₁ / m₂ < tol := by
  have hperm : (List.insertionSort (· ≤ ·) ext).Perm ext := List.perm_insertionSort _ _
  have hsort : List.Sorted (· ≤ ·) (List.insertionSort (· ≤ ·) ext) :=
    List.sorted_insertionSort _ _
  obtain ⟨a, t, hs⟩ : ∃ a t, List.insertionSort (· ≤ ·) ext = a :: t := by
    cases h : List.insertionSort (· ≤ ·) ext with
    | nil =>
      exfalso
      have hmem := hperm.mem_iff.mpr hm₁
      rw [h] at hmem
      simp at hmem
    | cons a t => exact ⟨a, t, rfl⟩
  rw [hs] at hperm hsort
  rw [List.sorted_cons] at hsort
  have ha : a = m₁ := by
    have hma : m₁ ∈ a :: t := hperm.mem_iff.mpr hm₁
    have haext : a ∈ ext := hperm.subset (List.mem_cons_self _ _)
    rcases List.mem_cons.mp hma with h | h
    · exact h.symm
    · exact le_antisymm (hsort.1 m₁ h) (hm₁min a haext)
  subst ha
  have htperm : t.Perm (ext.erase a) := by
    have h := hperm.erase a
    rwa [List.erase_cons_head] at h
  obtain ⟨b, u, ht⟩ : ∃ b u, t = b :: u := by
    cases h : t with
    | nil =>
      exfalso
      have hmem := htperm.mem_iff.mpr hm₂
      rw [h] at hmem
      simp at hmem
    | cons b u => exact ⟨b, u, rfl⟩
  rw [ht] at htperm hsort
  have hb : b = m₂ := by
    have hmb : m₂ ∈ b :: u := htperm.mem_iff.mpr hm₂
    have hbe : b ∈ ext.erase a := htperm.subset (List.mem_cons_self _ _)
    rcases List.mem_cons.mp hmb with h | h
    · exact h.symm
    · have hsu := hsort.2
      rw [List.sorted_cons] at hsu
      exact le_antisymm (hsu.1 m₂ h) (hm₂min b hbe)
  subst hb
  unfold is_flat
  rw [if_pos (by simp)]
  rw [hs, ht]
  simp [List.getD]

/-- Witness for claim C5: extents (1, 2, 3) are flat in ratio mode at
tolerance 3/5 (ratio 1/2 < 3/5) and not flat at tolerance 2/5. -/
theorem flat_ratio_characterization_witness :
    is_flat ⟨[1, 2, 3]⟩ (3/5) "ratio" = true ∧
    is_flat ⟨[1, 2, 3]⟩ (2/5) "ratio" = false := by
  have herase : (([1, 2, 3] : List ℚ).erase 1) = [2, 3] := by
    with_unfolding_all decide
  have hm₁ : (1 : ℚ) ∈ ([1, 2, 3] : List ℚ) := by norm_num
  have hm₁min : ∀ x ∈ ([1, 2, 3] : List ℚ), 1 ≤ x := by
    intro x hx
    fin_cases hx <;> norm_num
  have hm₂ : (2 : ℚ) ∈ ([1, 2, 3] : List ℚ).erase 1 := by
    rw [herase]
    norm_num
  have hm₂min : ∀ x ∈ ([1, 2, 3] : List ℚ).erase 1, 2 ≤ x := by
    rw [herase]
    intro x hx
    fin_cases hx <;> norm_num
  constructor
  · exact (flat_ratio_characterization [1, 2, 3] (3/5) 1 2 hm₁ hm₁min hm₂ hm₂min
      (by norm_num)).mpr (by norm_num)
  · rw [Bool.eq_false_iff, Ne,
      flat_ratio_characterization [1, 2, 3] (2/5) 1 2 hm₁ hm₁min hm₂ hm₂min (by norm_num)]
    norm_num

/-- Claim C6: for every method string other than `"ratio"` — including the
default `"tolerance"` and unrecognized garbage — `is_flat` returns true if
and only if at least one principal-direction extent is strictly below the
tolerance. -/
theorem flat_tolerance_fallback (ext : List ℚ) (tol : ℚ) (method : String)
    (hm : method ≠ "ratio") :
    is_flat ⟨ext⟩ tol method = true ↔ ∃ e ∈ ext, e < tol := by
  unfold is_flat
  rw [if_neg (by simpa using hm)]
  rw [List.any_eq_true]
  simp

/-- Witness for claim C6: a garbage method string behaves like tolerance
mode — extents (10, 10, 1/1000) are flat at tolerance 1/100. -/
theorem flat_tolerance_fallback_witness :
    is_flat ⟨[10, 10, 1/1000]⟩ (1/100) "garbage" = true :=
  (flat_tolerance_fallback [10, 10, 1/1000] (1/100) "garbage" (by decide)).mpr
    ⟨1/1000, by norm_num, by norm_num⟩

/-- Claim C7: for a parent→child edge the emitted vertical polygon has exactly
4 vertices: its top edge lies at the parent's y offset plus the vertical
spacing with half-width the parent's scaled radius, its bottom edge lies at
the child's new y offset — which advances from the parent's by twice the
vertical spacing plus the geometric segment length — with half-width the
child's scaled radius (a simple trapezoidal taper). -/
theorem vertical_polygon_shape (old_offs : ℚ × ℚ) (start_x sx sy pr cr scale ln : ℚ)
    (tm : ℕ) :
    ∃ c newy,
      _update_offsets start_x (sx, sy) tm old_offs ln = (c, newy) ∧
      newy = old_offs.2 + sy * 2 + ln ∧
      _vertical_segment old_offs (c, newy) (sx, sy) (pr * scale, cr * scale) =
        [(c - pr * scale, old_offs.2 + sy), (c - cr * scale, newy),
         (c + cr * scale, newy), (c + pr * scale, old_offs.2 + sy)] :=
  ⟨_, _, rfl, rfl, rfl⟩

/-- Claim C8: during layout a horizontal connector polygon is emitted for a
child exactly when the child's new x offset differs from the parent's current
x offset (first conjunct: the per-child emission decomposition, with the
connector guarded by that condition); a single child's new x offset always
equals the parent's (second conjunct), so no zero-width connector is ever
written and every horizontal polygon belongs to a node with at least two
children — a bifurcation's connector (third conjunct: the trace of a
single-child node contains the vertical body and the child subtree only). -/
theorem horizontal_connector_rule :
    (∀ (len : Row → Row → ℚ) (scale : ℚ) (pv : Row) (child : PTree) (rest : PForest)
        (sp offs : ℚ × ℚ) (sx : ℚ) (s : DState),
      (_generate_dendro_forest len scale pv (.cons child rest) sp offs sx s).rects
        = s.rects ++
          ((RKind.vertical,
              _vertical_segment offs
                (_update_offsets sx sp (n_terminations child) offs (len pv child.value))
                sp (pv.r * scale, child.value.r * scale))
            :: (emitsT len scale child sp
                  (_update_offsets sx sp (n_terminations child) offs (len pv child.value))
              ++ (if offs.1 ≠ (_update_offsets sx sp (n_terminations child) offs
                      (len pv child.value)).1 then
                    [(RKind.horizontal,
                      _horizontal_segment offs
                        (_update_offsets sx sp (n_terminations child) offs (len pv child.value))
                        sp 0)]
                  else [])
              ++ emitsF len scale pv rest sp offs (sx + (n_terminations child : ℚ) * sp.1)))) ∧
    (∀ (v : Row) (c : PTree) (md offs sp : ℚ × ℚ) (ln : ℚ),
      (_update_offsets (_spacingx (.node v (.cons c .nil)) md offs.1 sp.1).2 sp
          (n_terminations c) offs ln).1 = offs.1) ∧
    (∀ (len : Row → Row → ℚ) (scale : ℚ) (v : Row) (c : PTree) (sp offs : ℚ × ℚ),
      emitsT len scale (.node v (.cons c .nil)) sp offs
        = (RKind.vertical,
            _vertical_segment offs
              (_update_offsets
                (offs.1 - (n_terminations (PTree.node v (.cons c .nil)) : ℚ) * sp.1 / 2) sp
                (n_terminations c) offs (len v c.value))
              sp (v.r * scale, c.value.r * scale))
          :: emitsT len scale c sp
              (_update_offsets
                (offs.1 - (n_terminations (PTree.node v (.cons c .nil)) : ℚ) * sp.1 / 2) sp
                (n_terminations c) offs (len v c.value))) := by
  refine ⟨?_, ?_, ?_⟩
  · intro len scale pv child rest sp offs sx s
    rw [generate_dendro_forest_trace]
    rfl
  · intro v c md offs sp ln
    simp only [_spacingx, _update_offsets, n_terminations, ntermF]
    push_cast
    ring
  · intro len scale v c sp offs
    simp only [emitsT, emitsF]
    rw [if_neg]
    · simp
    · simp only [_update_offsets, ne_eq, not_not]
      simp only [n_terminations, ntermF]
      push_cast
      ring

/-- Counterexample for claim C9: the assigned center x offset of a child is
not a function of only the parent's x offset and the child's own leaf count —
the second child of `c9tree₁` and of `c9tree₂` has leaf count 1 and parent x
offset 0 in both trees, yet it is placed at x = 20 in the first and x = 40 in
the second (the first sibling's leaf count differs). -/
theorem child_x_not_function_of_own_leafcount :
    ¬ (∀ (t₁ t₂ : PTree) (px : ℚ) (i₁ i₂ : ℕ) (c₁ c₂ : PTree),
        t₁.children.get? i₁ = some c₁ → t₂.children.get? i₂ = some c₂ →
        n_terminations c₁ = n_terminations c₂ →
        assignedChildX px 40 t₁ i₁ = assignedChildX px 40 t₂ i₂) := by
  intro hfun
  have h := hfun c9tree₁ c9tree₂ 0 1 1 leafP leafP rfl rfl rfl
  rw [show assignedChildX 0 40 c9tree₁ 1 = some 20 from by with_unfolding_all decide,
    show assignedChildX 0 40 c9tree₂ 1 = some 40 from by with_unfolding_all decide] at h
  exact absurd h (by with_unfolding_all decide)

/-- Claim C9 (amended): each child's assigned center x offset is a function of
the parent's x offset and the leaf counts of the parent's children sequence
(its own leaf count together with its siblings'); in particular it is
independent of the siblings' internal structure below those leaf counts. -/
theorem child_x_function_of_leaf_counts (px sx : ℚ) (t₁ t₂ : PTree) (i : ℕ)
    (h : nTermList t₁.children = nTermList t₂.children) :
    assignedChildX px sx t₁ i = assignedChildX px sx t₂ i := by
  cases t₁ with
  | node v₁ f₁ =>
    cases t₂ with
    | node v₂ f₂ =>
      simp only [PTree.children] at h
      have hn : n_terminations (.node v₁ f₁) = n_terminations (.node v₂ f₂) := by
        cases f₁ with
        | nil =>
          cases f₂ with
          | nil => rfl
          | cons a b => simp [nTermList] at h
        | cons a b =>
          cases f₂ with
          | nil => simp [nTermList] at h
          | cons a₂ b₂ =>
            show ntermF (.cons a b) = ntermF (.cons a₂ b₂)
            rw [ntermF_eq_sum, ntermF_eq_sum, h]
      unfold assignedChildX
      simp only [PTree.children]
      rw [hn]
      exact childAssignedX_congr sx f₁ f₂ _ i h

/-- Witness for the amended claim C9: `c9tree₂` and `c9tree₃` have the same
per-child leaf-count list (2, 1) with different internal sibling structure,
and their second child receives the same x offset. -/
theorem child_x_function_of_leaf_counts_witness :
    nTermList c9tree₂.children = nTermList c9tree₃.children ∧
    assignedChildX 0 40 c9tree₂ 1 = assignedChildX 0 40 c9tree₃ 1 :=
  ⟨by with_unfolding_all decide,
    child_x_function_of_leaf_counts 0 40 c9tree₂ c9tree₃ 1 (by with_unfolding_all decide)⟩

/-- Claim C10: for an input object that is neither a `Tree` nor a `Neuron`,
the polygon-count estimator returns 0 rather than raising, so constructing a
`Dendrogram` on such an object silently allocates an empty polygon buffer. -/
theorem other_object_empty_buffer :
    _n_rectangles DendroObj.other = 0 ∧ (initRectangles DendroObj.other).length = 0 :=
  ⟨rfl, rfl⟩

set_option maxHeartbeats 4000000 in
/-- Claim C1 (failing-input evaluation): on the trifurcated tree `triP`
(child leaf counts (2, 1, 1)) the fill pass writes 10 polygons while the
estimator pre-allocates 9 = 5 segments + 2 × 2 bifurcations, so the final
write index does not equal the pre-allocated buffer length — in the source
this write overruns the numpy buffer. -/
theorem buffer_fill_mismatch_on_trifurcation :
    (generate (fun _ _ => 0) 1 triP).n = 10 ∧
    _n_rectangles (DendroObj.tree triP) = 9 := by
  constructor
  · with_unfolding_all decide
  · with_unfolding_all decide

end NeuroM
